import Mathlib

/-!
A shallow embedding of the OSS access-control service
(`pkg/services/accesscontrol/ossaccesscontrol/ossaccesscontrol.go`), together
with theorems about its registry, declaration, permission-resolution,
evaluation and resource-metadata operations.

Go maps are modelled as association lists with lookup semantics, Go slices as
lists, and fallible calls as `Except`/`Option` values.  Helpers of the
`accesscontrol` package whose source is not part of the excerpt (the
validators, the scope resolver, the scope constructors, the evaluator and the
built-in role ladder) are modelled from the specification and marked as such
in their doc comments.
-/

namespace GrafanaAC

/-- accesscontrol.Permission: an action on a scope. -/
structure Permission where
  action : String
  scope : String
deriving DecidableEq, Repr

/-- accesscontrol.RoleDTO (the fields the excerpt uses). -/
structure RoleDTO where
  uid : String
  name : String
  version : Nat
  permissions : List Permission
deriving DecidableEq, Repr

/-- accesscontrol.RoleRegistration: a role with the built-in roles it is granted to. -/
structure RoleRegistration where
  role : RoleDTO
  grants : List String
deriving DecidableEq, Repr

/-- The error kinds of the specification (section 7). -/
inductive AccessErr where
  | fixedRolePrefixMissing
  | invalidBuiltinRole
  | resolutionError (keyword : String)
  | storeError (msg : String)
deriving DecidableEq, Repr

/-- Reading a Go map, modelled as association-list lookup. -/
def lookupA {α : Type} : List (String × α) → String → Option α
  | [], _ => none
  | (k', v) :: rest, k => if k' = k then some v else lookupA rest k

/-- Writing a Go map, modelled as association-list update. -/
def insertA {α : Type} : List (String × α) → String → α → List (String × α)
  | [], k, v => [(k, v)]
  | (k', v') :: rest, k, v =>
    if k' = k then (k, v) :: rest else (k', v') :: insertA rest k v

theorem lookupA_insertA_self {α : Type} (m : List (String × α)) (k : String) (v : α) :
    lookupA (insertA m k v) k = some v := by
  induction m with
  | nil => simp [insertA, lookupA]
  | cons p rest ih =>
    obtain ⟨pk, pv⟩ := p
    by_cases h : pk = k
    · simp [insertA, lookupA, h]
    · simp [insertA, lookupA, h, ih]

theorem lookupA_insertA_ne {α : Type} (m : List (String × α)) {k k' : String} (v : α)
    (h : k' ≠ k) : lookupA (insertA m k v) k' = lookupA m k' := by
  have hk : ¬ (k = k') := fun hh => h hh.symm
  induction m with
  | nil => simp [insertA, lookupA, hk]
  | cons p rest ih =>
    obtain ⟨pk, pv⟩ := p
    by_cases hp : pk = k
    · subst hp
      simp [insertA, lookupA, hk]
    · by_cases hp' : pk = k'
      · simp [insertA, lookupA, hp, hp', hk, h]
      · simp [insertA, lookupA, hp, hp', ih]

/-- The process-wide fixed-role registry: the maps accesscontrol.FixedRoles and
accesscontrol.FixedRoleGrants. -/
structure Registry where
  fixedRoles : List (String × RoleDTO)
  fixedRoleGrants : List (String × List String)
deriving DecidableEq, Repr

/-- OSSAccessControlService.saveFixedRole: a role already stored in a greater or
equal version is kept; otherwise the incoming role body is saved. -/
def saveFixedRole (st : Registry) (role : RoleDTO) : Registry :=
  match lookupA st.fixedRoles role.name with
  | some storedRole =>
    if role.version ≤ storedRole.version then st
    else { st with fixedRoles := insertA st.fixedRoles role.name role }
  | none => { st with fixedRoles := insertA st.fixedRoles role.name role }

/-- One iteration of OSSAccessControlService.assignFixedRole's loop: append the
role name to the built-in role's grant list unless it is already assigned. -/
def assignStep (roleName : String) (st : Registry) (builtInRole : String) : Registry :=
  if roleName ∈ (lookupA st.fixedRoleGrants builtInRole).getD [] then st
  else { st with fixedRoleGrants := insertA st.fixedRoleGrants builtInRole (((lookupA st.fixedRoleGrants builtInRole).getD []) ++ [roleName]) }

/-- OSSAccessControlService.assignFixedRole. -/
def assignFixedRole (st : Registry) (role : RoleDTO) (builtInRoles : List String) : Registry :=
  builtInRoles.foldl (assignStep role.name) st

/-- OSSAccessControlService.registerFixedRole: save the role, then assign it. -/
def registerFixedRole (st : Registry) (role : RoleDTO) (builtInRoles : List String) : Registry :=
  assignFixedRole (saveFixedRole st role) role builtInRoles

/-- The grant list recorded for a built-in role. -/
def grantsOf (st : Registry) (builtInRole : String) : List String :=
  (lookupA st.fixedRoleGrants builtInRole).getD []

/-- A sequence of registerFixedRole calls applied in order. -/
def registerSeq (st : Registry) (calls : List (RoleDTO × List String)) : Registry :=
  calls.foldl (fun s c => registerFixedRole s c.1 c.2) st

theorem saveFixedRole_fixedRoleGrants (st : Registry) (role : RoleDTO) :
    (saveFixedRole st role).fixedRoleGrants = st.fixedRoleGrants := by
  unfold saveFixedRole
  cases lookupA st.fixedRoles role.name with
  | none => rfl
  | some storedRole =>
    by_cases h : role.version ≤ storedRole.version <;> simp [h]

theorem assignStep_fixedRoles (n : String) (st : Registry) (b : String) :
    (assignStep n st b).fixedRoles = st.fixedRoles := by
  unfold assignStep
  by_cases h : n ∈ (lookupA st.fixedRoleGrants b).getD [] <;> simp [h]

theorem assignFixedRole_fixedRoles (st : Registry) (role : RoleDTO) (bs : List String) :
    (assignFixedRole st role bs).fixedRoles = st.fixedRoles := by
  unfold assignFixedRole
  induction bs generalizing st with
  | nil => rfl
  | cons b rest ih => rw [List.foldl_cons, ih, assignStep_fixedRoles]

theorem grantsOf_saveFixedRole (st : Registry) (role : RoleDTO) (b : String) :
    grantsOf (saveFixedRole st role) b = grantsOf st b := by
  unfold grantsOf
  rw [saveFixedRole_fixedRoleGrants]

theorem assignStep_mono {n : String} {st : Registry} {b : String} (m b' : String)
    (h : n ∈ grantsOf st b) : n ∈ grantsOf (assignStep m st b') b := by
  unfold assignStep
  by_cases hmem : m ∈ (lookupA st.fixedRoleGrants b').getD []
  · rw [if_pos hmem]; exact h
  · rw [if_neg hmem]
    by_cases hb : b = b'
    · subst hb
      simp only [grantsOf] at h ⊢
      simp only [lookupA_insertA_self, Option.getD_some]
      exact List.mem_append_left _ h
    · simp only [grantsOf] at h ⊢
      simpa [lookupA_insertA_ne _ _ hb] using h

theorem foldl_assignStep_mono {n : String} (m : String) (bs : List String)
    (st : Registry) (b : String) (h : n ∈ grantsOf st b) :
    n ∈ grantsOf (bs.foldl (assignStep m) st) b := by
  induction bs generalizing st with
  | nil => exact h
  | cons b' rest ih => exact ih _ (assignStep_mono m b' h)

theorem assignStep_self_mem (n : String) (st : Registry) (b : String) :
    n ∈ grantsOf (assignStep n st b) b := by
  unfold assignStep
  by_cases hmem : n ∈ (lookupA st.fixedRoleGrants b).getD []
  · rw [if_pos hmem]; exact hmem
  · rw [if_neg hmem]
    simp [grantsOf, lookupA_insertA_self]

theorem assignFixedRole_mem_of_mem (st : Registry) (role : RoleDTO) (bs : List String)
    (b : String) : b ∈ bs → role.name ∈ grantsOf (assignFixedRole st role bs) b := by
  unfold assignFixedRole
  induction bs generalizing st with
  | nil => intro hb; cases hb
  | cons b' rest ih =>
    intro hb
    rw [List.foldl_cons]
    rcases List.mem_cons.mp hb with h | h
    · subst h
      exact foldl_assignStep_mono role.name rest _ b (assignStep_self_mem role.name st b)
    · exact ih _ h

theorem registerFixedRole_grants_mono {n : String} {st : Registry} {b : String}
    (r : RoleDTO) (bs : List String) (h : n ∈ grantsOf st b) :
    n ∈ grantsOf (registerFixedRole st r bs) b := by
  unfold registerFixedRole assignFixedRole
  exact foldl_assignStep_mono _ _ _ _ (by rwa [grantsOf_saveFixedRole])

theorem registerSeq_grants_mono_aux {n : String} {b : String} (st : Registry)
    (calls : List (RoleDTO × List String)) (h : n ∈ grantsOf st b) :
    n ∈ grantsOf (registerSeq st calls) b := by
  unfold registerSeq
  induction calls generalizing st with
  | nil => exact h
  | cons c rest ih => exact ih _ (registerFixedRole_grants_mono c.1 c.2 h)

theorem assignStep_preserve {n : String} {st : Registry} {b : String} (b' : String)
    (h : n ∈ grantsOf st b) : grantsOf (assignStep n st b') b = grantsOf st b := by
  unfold assignStep
  by_cases hmem : n ∈ (lookupA st.fixedRoleGrants b').getD []
  · rw [if_pos hmem]
  · rw [if_neg hmem]
    by_cases hb : b = b'
    · subst hb
      exact absurd h hmem
    · simp [grantsOf, lookupA_insertA_ne _ _ hb]

theorem foldl_assignStep_preserve {n : String} (bs : List String) (st : Registry)
    (b : String) (h : n ∈ grantsOf st b) :
    grantsOf (bs.foldl (assignStep n) st) b = grantsOf st b := by
  induction bs generalizing st with
  | nil => rfl
  | cons b' rest ih =>
    rw [List.foldl_cons, ih _ (by rwa [assignStep_preserve b' h]),
      assignStep_preserve b' h]

/-- Modelled from the spec: accesscontrol.ValidateFixedRole (its source is not in
the excerpt) checks that the role name carries the reserved fixed-role name
start "fixed:"; its failure is the test error accesscontrol.ErrFixedRolePrefixMissing. -/
def ValidateFixedRole (role : RoleDTO) : Option AccessErr :=
  if "fixed:".data.isPrefixOf role.name.data then none else some .fixedRolePrefixMissing

/-- Modelled from the spec: the recognized built-in role names ("Viewer",
"Editor", "Admin", or the super-admin sentinel "Grafana Admin"). -/
def builtInRoleNames : List String := ["Viewer", "Editor", "Admin", "Grafana Admin"]

/-- Modelled from the spec: accesscontrol.ValidateBuiltInRoles (its source is not
in the excerpt) checks that every grant target is a recognized built-in role
name; its failure is the test error accesscontrol.ErrInvalidBuiltinRole. -/
def ValidateBuiltInRoles (grants : List String) : Option AccessErr :=
  if grants.all (fun g => decide (g ∈ builtInRoleNames)) then none else some .invalidBuiltinRole

/-- The loop of OSSAccessControlService.DeclareFixedRoles: each registration is
validated and, when valid, appended to the service registration list; the first
validation failure returns that error, keeping whatever was appended before it. -/
def declareLoop (queue : List RoleRegistration) :
    List RoleRegistration → List RoleRegistration × Option AccessErr
  | [] => (queue, none)
  | r :: rest =>
    match ValidateFixedRole r.role with
    | some e => (queue, some e)
    | none =>
      match ValidateBuiltInRoles r.grants with
      | some e => (queue, some e)
      | none => declareLoop (queue ++ [r]) rest

/-- OSSAccessControlService.DeclareFixedRoles; the returned list is the service's
registration list after the call, next to the returned error. -/
def DeclareFixedRoles (disabled : Bool) (queue : List RoleRegistration)
    (registrations : List RoleRegistration) : List RoleRegistration × Option AccessErr :=
  if disabled then (queue, none) else declareLoop queue registrations

/-- models.RoleType restricted to the three organizational tiers of the spec. -/
inductive OrgRole where
  | viewer
  | editor
  | admin
deriving DecidableEq, Repr

/-- The name of an organizational role. -/
def OrgRole.str : OrgRole → String
  | .viewer => "Viewer"
  | .editor => "Editor"
  | .admin => "Admin"

/-- Modelled from the spec: models.RoleType.Children (its source is not in the
excerpt), the organizational ladder - each higher role implies all lower roles. -/
def OrgRole.Children : OrgRole → List OrgRole
  | .viewer => []
  | .editor => [.viewer]
  | .admin => [.editor, .viewer]

/-- The privilege height of a role on the organizational ladder. -/
def OrgRole.level : OrgRole → Nat
  | .viewer => 0
  | .editor => 1
  | .admin => 2

/-- accesscontrol.RoleGrafanaAdmin, the super-admin sentinel role name. -/
def RoleGrafanaAdmin : String := "Grafana Admin"

/-- models.SignedInUser (the fields the excerpt uses; the team list is carried
for scope resolution). -/
structure SignedInUser where
  userId : Int
  orgId : Int
  orgRole : OrgRole
  isGrafanaAdmin : Bool
  teams : List Int
deriving DecidableEq, Repr

/-- OSSAccessControlService.GetUserBuiltInRoles: the user's org role, the roles
it implies, and the super-admin sentinel when the flag is set. -/
def GetUserBuiltInRoles (user : SignedInUser) : List String :=
  if user.isGrafanaAdmin then
    ([user.orgRole.str] ++ user.orgRole.Children.map OrgRole.str) ++ [RoleGrafanaAdmin]
  else
    [user.orgRole.str] ++ user.orgRole.Children.map OrgRole.str

/-- The inner loop body of OSSAccessControlService.getFixedPermissions: append
the permissions of the named fixed role, or skip a name absent from the
registry. -/
def fixedPermStep (st : Registry) (ps : List Permission) (name : String) : List Permission :=
  match lookupA st.fixedRoles name with
  | none => ps
  | some role => ps ++ role.permissions

/-- The outer loop body of OSSAccessControlService.getFixedPermissions: walk the
grant list of one built-in role, or skip a built-in role with no grant entry. -/
def builtinPermStep (st : Registry) (permissions : List Permission) (builtin : String) :
    List Permission :=
  match lookupA st.fixedRoleGrants builtin with
  | some roleNames => roleNames.foldl (fixedPermStep st) permissions
  | none => permissions

/-- OSSAccessControlService.getFixedPermissions: collect the permissions of
every fixed role granted to one of the given built-in roles, skipping grant
entries whose role name is absent from the fixed-role registry. -/
def getFixedPermissions (st : Registry) (builtinRoles : List String) : List Permission :=
  builtinRoles.foldl (builtinPermStep st) []

/-- The permissions the registry holds for one fixed-role name (none when the
name is absent). -/
def permsOfName (st : Registry) (name : String) : List Permission :=
  (lookupA st.fixedRoles name).elim [] RoleDTO.permissions

/-- Modelled from the spec: accesscontrol.ScopeResolver.ResolveKeyword (its
source is not in the excerpt).  A "self" placeholder scope is rewritten to the
principal's concrete identifier ("users:self" to "users:id:" plus the numeric
user id); a self-team scope needs a team context and fails with a
ResolutionError when the principal has none; any other scope passes unchanged. -/
def ResolveKeyword (user : SignedInUser) (p : Permission) : Except AccessErr Permission :=
  if p.scope = "users:self" then
    .ok { p with scope := "users:id:" ++ toString user.userId }
  else if p.scope = "teams:self" then
    match user.teams with
    | [] => .error (.resolutionError "teams:self")
    | t :: _ => .ok { p with scope := "teams:id:" ++ toString t }
  else .ok p

/-- The resolution loop of OSSAccessControlService.GetUserPermissions: resolve
the permissions one by one, returning the first resolution error. -/
def resolveAll (user : SignedInUser) : List Permission → Except AccessErr (List Permission)
  | [] => .ok []
  | p :: rest =>
    match ResolveKeyword user p with
    | .error e => .error e
    | .ok q =>
      match resolveAll user rest with
      | .error e => .error e
      | .ok qs => .ok (q :: qs)

/-- OSSAccessControlService.GetUserPermissions: the fixed permissions of the
user's built-in roles, each passed through scope resolution. -/
def GetUserPermissions (st : Registry) (user : SignedInUser) : Except AccessErr (List Permission) :=
  resolveAll user (getFixedPermissions st (GetUserBuiltInRoles user))

/-- Modelled from the spec: the evaluator's scope wildcard rule (the evaluator's
source is not in the excerpt).  A granted scope matches a required scope when
they are equal, or the granted scope is the universal wildcard "*", or the
granted scope ends in ":*" and its literal part (wildcard marker removed,
trailing colon kept) starts the required scope. -/
def scopeMatchChars (granted required : List Char) : Bool :=
  granted == required || granted == ['*'] ||
    ([':', '*'].isSuffixOf granted && granted.dropLast.isPrefixOf required)

/-- Scope matching on strings. -/
def scopeMatches (granted required : String) : Bool :=
  scopeMatchChars granted.data required.data

/-- Modelled from the spec: the boolean evaluator tree (spec section 4.4): a leaf
requires an (action, scope) pair; conjunction and disjunction combine children. -/
inductive Evaluator where
  | leaf (action : String) (scope : String)
  | eall (l r : Evaluator)
  | eany (l r : Evaluator)
deriving DecidableEq, Repr

/-- One step of the action grouping: record the permission's scope under its
action. -/
def groupStep (m : List (String × List String)) (p : Permission) : List (String × List String) :=
  insertA m p.action (((lookupA m p.action).getD []) ++ [p.scope])

/-- Modelled from the spec: accesscontrol.GroupScopesByAction (its source is not
in the excerpt) groups a permission list into an action-indexed map of granted
scopes. -/
def GroupScopesByAction (perms : List Permission) : List (String × List String) :=
  perms.foldl groupStep []

/-- Modelled from the spec: evaluation of an evaluator tree against the grouped
permission index.  A leaf holds when the required action is present and some
granted scope matches the required scope; evaluation is total and never errors. -/
def Evaluator.run : Evaluator → List (String × List String) → Bool
  | .leaf action scope, idx =>
    ((lookupA idx action).getD []).any (fun granted => scopeMatches granted scope)
  | .eall l r, idx => l.run idx && r.run idx
  | .eany l r, idx => l.run idx || r.run idx

/-- OSSAccessControlService.Evaluate: resolve the user's permissions, then run
the evaluator on the permission set grouped by action. -/
def Evaluate (st : Registry) (user : SignedInUser) (ev : Evaluator) : Except AccessErr Bool :=
  match GetUserPermissions st user with
  | .error e => .error e
  | .ok permissions => .ok (ev.run (GroupScopesByAction permissions))

/-- Modelled from the spec: accesscontrol.GetResourceScope (its source is not in
the excerpt), the concrete scope of one resource id. -/
def GetResourceScope (resource id : String) : String := resource ++ ":id:" ++ id

/-- Modelled from the spec: accesscontrol.GetResourceAllScope, the resource-wide
scope. -/
def GetResourceAllScope (resource : String) : String := resource ++ ":*"

/-- Modelled from the spec: accesscontrol.GetResourceAllIDScope, the all-ids
scope. -/
def GetResourceAllIDScope (resource : String) : String := resource ++ ":id:*"

/-- The scope test of OSSAccessControlService.GetResourcesMetadata's inner loop:
universal wildcard, resource-wide scope, all-ids scope, or the id's concrete
scope. -/
def scopeHit (resource r : String) (p : Permission) : Bool :=
  p.scope == "*" || p.scope == GetResourceAllScope resource ||
    p.scope == GetResourceAllIDScope resource || p.scope == GetResourceScope resource r

/-- One step of GetResourcesMetadata's permission loop for resource id r: when
the permission's scope hits, record its action under r. -/
def metaStep (resource r : String) (result : List (String × List String)) (p : Permission) :
    List (String × List String) :=
  if scopeHit resource r p then
    insertA result r
      (if p.action ∈ (lookupA result r).getD [] then (lookupA result r).getD []
       else ((lookupA result r).getD []) ++ [p.action])
  else result

/-- GetResourcesMetadata's permission loop for one requested resource id. -/
def metaForID (resource : String) (perms : List Permission)
    (result : List (String × List String)) (r : String) : List (String × List String) :=
  perms.foldl (metaStep resource r) result

/-- OSSAccessControlService.GetResourcesMetadata; the reply of the external
permission store call is passed in as a value. -/
def GetResourcesMetadata (st : Registry) (user : SignedInUser) (resource : String)
    (resourceIDs : List String) (storeResp : Except AccessErr (List Permission)) :
    Except AccessErr (List (String × List String)) :=
  match storeResp with
  | .error e => .error e
  | .ok storedPermissions =>
    .ok (resourceIDs.foldl
      (metaForID resource (getFixedPermissions st (GetUserBuiltInRoles user) ++ storedPermissions))
      [])

/-! Theorems. -/

/-- A valid fixed-role registration (used as a concrete input). -/
def regValid : RoleRegistration := ⟨⟨"", "fixed:test:test", 1, []⟩, ["Admin"]⟩

/-- A registration whose role name lacks the reserved fixed-role name start
(used as a concrete input). -/
def regInvalid : RoleRegistration := ⟨⟨"", "custom:test:test", 1, []⟩, ["Admin"]⟩

/-- Claim C1 counterexample: declaring a batch whose second registration is
invalid returns the validation error, yet the valid first registration has
already been queued in the service's registration list - so the claimed "no
registration from that batch is queued" is false on the code. -/
theorem declareFixedRoles_partial_batch_counterexample :
    (DeclareFixedRoles false [] [regValid, regInvalid]).2 = some AccessErr.fixedRolePrefixMissing
    ∧ (DeclareFixedRoles false [] [regValid, regInvalid]).1 = [regValid] := by
  constructor <;> rfl

/-- A registration passing both validators. -/
def validReg (r : RoleRegistration) : Prop :=
  ValidateFixedRole r.role = none ∧ ValidateBuiltInRoles r.grants = none

instance (r : RoleRegistration) : Decidable (validReg r) :=
  inferInstanceAs (Decidable (ValidateFixedRole r.role = none ∧ ValidateBuiltInRoles r.grants = none))

theorem declareLoop_cons_valid (queue : List RoleRegistration) (r : RoleRegistration)
    (rest : List RoleRegistration) (h1 : ValidateFixedRole r.role = none)
    (h2 : ValidateBuiltInRoles r.grants = none) :
    declareLoop queue (r :: rest) = declareLoop (queue ++ [r]) rest := by
  rw [declareLoop, h1, h2]

theorem declareLoop_first_invalid (pre : List RoleRegistration) :
    ∀ (queue rest : List RoleRegistration) (bad : RoleRegistration),
      (∀ r ∈ pre, validReg r) → ¬ validReg bad →
      ∃ e, declareLoop queue (pre ++ bad :: rest) = (queue ++ pre, some e) := by
  induction pre with
  | nil =>
    intro queue rest bad _ hbad
    rw [List.nil_append, List.append_nil]
    rw [declareLoop]
    cases h1 : ValidateFixedRole bad.role with
    | some e => exact ⟨e, rfl⟩
    | none =>
      cases h2 : ValidateBuiltInRoles bad.grants with
      | some e => exact ⟨e, rfl⟩
      | none => exact absurd ⟨h1, h2⟩ hbad
  | cons r pre' ih =>
    intro queue rest bad hpre hbad
    obtain ⟨h1, h2⟩ := hpre r (List.mem_cons_self r pre')
    obtain ⟨e, he⟩ :=
      ih (queue ++ [r]) rest bad (fun x hx => hpre x (List.mem_cons_of_mem _ hx)) hbad
    refine ⟨e, ?_⟩
    rw [List.cons_append, declareLoop_cons_valid _ _ _ h1 h2, he]
    simp

/-- Claim C1 amended: when an enabled service is given a batch containing an
invalid registration, DeclareFixedRoles returns a validation error and queues
none of the registrations from the first invalid one onward; the valid
registrations preceding the first invalid one, however, are queued (partial
registration of the valid head of the batch does occur). -/
theorem declareFixedRoles_first_invalid (queue pre rest : List RoleRegistration)
    (bad : RoleRegistration) (hpre : ∀ r ∈ pre, validReg r) (hbad : ¬ validReg bad) :
    ∃ e, DeclareFixedRoles false queue (pre ++ bad :: rest) = (queue ++ pre, some e) := by
  have h := declareLoop_first_invalid pre queue rest bad hpre hbad
  simpa [DeclareFixedRoles] using h

/-- Witness for the amended claim C1 at a concrete batch. -/
theorem declareFixedRoles_first_invalid_witness :
    ∃ e, DeclareFixedRoles false [] [regValid, regInvalid] = ([regValid], some e) := by
  have h := declareFixedRoles_first_invalid [] [regValid] [] regInvalid (by decide) (by decide)
  simpa using h

/-- Claim C2: registering a role whose name is already stored keeps the stored
body when the stored version is greater than or equal to the incoming one (so
registering v1 then v1 retains the first body) and replaces it when the
incoming version is strictly greater; in both cases the registration's grants
are still processed against the role name. -/
theorem registerFixedRole_version_rule (st : Registry) (role : RoleDTO) (bs : List String)
    (stored : RoleDTO) (h : lookupA st.fixedRoles role.name = some stored) :
    lookupA (registerFixedRole st role bs).fixedRoles role.name
        = some (if role.version ≤ stored.version then stored else role)
    ∧ ∀ b ∈ bs, role.name ∈ grantsOf (registerFixedRole st role bs) b := by
  constructor
  · rw [registerFixedRole, assignFixedRole_fixedRoles]
    rw [saveFixedRole, h]
    by_cases hv : role.version ≤ stored.version
    · simp [hv, h]
    · simp [hv, lookupA_insertA_self]
  · intro b hb
    exact assignFixedRole_mem_of_mem _ _ _ _ hb

/-- A stored role body (used as a concrete input). -/
def roleBodyA : RoleDTO := ⟨"", "fixed:test:test", 1, [⟨"users:read", "users:id:1"⟩]⟩

/-- A same-name same-version role with a different body (used as a concrete input). -/
def roleBodyB : RoleDTO := ⟨"", "fixed:test:test", 1, []⟩

/-- A registry already holding roleBodyA (used as a concrete input). -/
def stSaved : Registry := ⟨[("fixed:test:test", roleBodyA)], []⟩

/-- Witness for claim C2: re-registering v1 over stored v1 keeps the stored
body and still records the grant. -/
theorem registerFixedRole_version_rule_witness :
    lookupA (registerFixedRole stSaved roleBodyB ["Viewer"]).fixedRoles "fixed:test:test"
        = some roleBodyA
    ∧ "fixed:test:test" ∈ grantsOf (registerFixedRole stSaved roleBodyB ["Viewer"]) "Viewer" := by
  have h := registerFixedRole_version_rule stSaved roleBodyB ["Viewer"] roleBodyA (by decide)
  refine ⟨?_, h.2 "Viewer" (by simp)⟩
  have h1 := h.1
  simpa [roleBodyA, roleBodyB] using h1

/-- Claim C3: grant pairs are monotonic - every (built-in role, role name) grant
pair present after a prefix of a register sequence is present after the whole
sequence - and registering a role name already granted to a built-in role
leaves that built-in role's grant list unchanged (no duplicate entry). -/
theorem registerSeq_grants_monotone :
    (∀ (st : Registry) (calls : List (RoleDTO × List String)) (i : Nat) (b n : String),
      n ∈ grantsOf (registerSeq st (calls.take i)) b → n ∈ grantsOf (registerSeq st calls) b)
    ∧ ∀ (st : Registry) (r : RoleDTO) (bs : List String) (b : String),
      r.name ∈ grantsOf st b → grantsOf (registerFixedRole st r bs) b = grantsOf st b := by
  constructor
  · intro st calls i b n h
    have hsplit : registerSeq st calls
        = registerSeq (registerSeq st (calls.take i)) (calls.drop i) := by
      unfold registerSeq
      rw [← List.foldl_append, List.take_append_drop]
    rw [hsplit]
    exact registerSeq_grants_mono_aux _ _ h
  · intro st r bs b h
    rw [registerFixedRole, assignFixedRole,
      foldl_assignStep_preserve bs _ b (by rwa [grantsOf_saveFixedRole]),
      grantsOf_saveFixedRole]

/-- Witness for claim C3 at concrete registries: a pre-existing grant pair
survives a register call, and re-granting an existing grant leaves the grant
list unchanged. -/
theorem registerSeq_grants_monotone_witness :
    "fixed:a" ∈ grantsOf
        (registerSeq ⟨[], [("Viewer", ["fixed:a"])]⟩ [(⟨"", "fixed:b", 1, []⟩, ["Editor"])])
        "Viewer"
    ∧ grantsOf
          (registerFixedRole ⟨[], [("Viewer", ["fixed:b"])]⟩ ⟨"", "fixed:b", 1, []⟩ ["Viewer"])
          "Viewer"
        = grantsOf (⟨[], [("Viewer", ["fixed:b"])]⟩ : Registry) "Viewer" :=
  ⟨registerSeq_grants_monotone.1 ⟨[], [("Viewer", ["fixed:a"])]⟩ [(⟨"", "fixed:b", 1, []⟩, ["Editor"])]
      0 "Viewer" "fixed:a" (by decide),
    registerSeq_grants_monotone.2 ⟨[], [("Viewer", ["fixed:b"])]⟩ ⟨"", "fixed:b", 1, []⟩
      ["Viewer"] "Viewer" (by decide)⟩

theorem orgRole_exists_iff (P : OrgRole → Prop) :
    (∃ r : OrgRole, P r) ↔ P .viewer ∨ P .editor ∨ P .admin := by
  constructor
  · rintro ⟨r, h⟩
    cases r
    · exact Or.inl h
    · exact Or.inr (Or.inl h)
    · exact Or.inr (Or.inr h)
  · rintro (h | h | h) <;> exact ⟨_, h⟩

/-- Claim C5: the built-in role expansion contains, as a set, exactly the
declared org role, every strictly lower role on the organizational ladder (so
an Editor-level name is seen by Admins and Editors but not Viewers), and the
super-admin sentinel exactly when the super-admin flag is set. -/
theorem getUserBuiltInRoles_set (user : SignedInUser) (name : String) :
    name ∈ GetUserBuiltInRoles user ↔
      (name = user.orgRole.str
        ∨ (∃ r : OrgRole, r.level < user.orgRole.level ∧ name = r.str)
        ∨ (user.isGrafanaAdmin = true ∧ name = RoleGrafanaAdmin)) := by
  obtain ⟨uid, oid, orole, adminFlag, teams⟩ := user
  cases orole <;> cases adminFlag <;>
    simp +decide [GetUserBuiltInRoles, OrgRole.Children, OrgRole.str, OrgRole.level,
      RoleGrafanaAdmin, orgRole_exists_iff] <;> tauto

/-- Claim C8: when the external permission store call fails,
GetResourcesMetadata propagates that error to its caller and returns no
metadata map at all. -/
theorem getResourcesMetadata_store_error (st : Registry) (user : SignedInUser)
    (resource : String) (resourceIDs : List String) (e : AccessErr) :
    GetResourcesMetadata st user resource resourceIDs (.error e) = .error e := rfl

theorem foldl_fixedPermStep (st : Registry) (names : List String) : ∀ acc,
    names.foldl (fixedPermStep st) acc
      = acc ++ (names.filter (fun name => (lookupA st.fixedRoles name).isSome)).flatMap
          (permsOfName st) := by
  induction names with
  | nil => intro acc; simp
  | cons n rest ih =>
    intro acc
    rw [List.foldl_cons]
    cases h : lookupA st.fixedRoles n with
    | none =>
      have hstep : fixedPermStep st acc n = acc := by rw [fixedPermStep, h]
      rw [hstep, ih]
      simp [h]
    | some role =>
      have hstep : fixedPermStep st acc n = acc ++ role.permissions := by rw [fixedPermStep, h]
      rw [hstep, ih]
      simp [h, permsOfName, List.append_assoc]

theorem foldl_builtinPermStep (st : Registry) (bs : List String) : ∀ acc,
    bs.foldl (builtinPermStep st) acc
      = acc ++ bs.flatMap (fun builtin =>
          (((lookupA st.fixedRoleGrants builtin).getD []).filter
            (fun name => (lookupA st.fixedRoles name).isSome)).flatMap (permsOfName st)) := by
  induction bs with
  | nil => intro acc; simp
  | cons b rest ih =>
    intro acc
    rw [List.foldl_cons]
    cases h : lookupA st.fixedRoleGrants b with
    | none =>
      have hstep : builtinPermStep st acc b = acc := by rw [builtinPermStep, h]
      rw [hstep, ih]
      simp [h]
    | some names =>
      have hstep : builtinPermStep st acc b = names.foldl (fixedPermStep st) acc := by
        rw [builtinPermStep, h]
      rw [hstep, foldl_fixedPermStep, ih]
      simp [h, List.append_assoc]

/-- Claim C10: collecting fixed permissions is total - a grant entry whose role
name is absent from the fixed-role registry is skipped and contributes nothing,
and the result is exactly the concatenation of the permissions of the granted
role names present in the registry, in grant order per built-in role. -/
theorem getFixedPermissions_concat (st : Registry) (builtinRoles : List String) :
    getFixedPermissions st builtinRoles
      = builtinRoles.flatMap (fun builtin =>
          (((lookupA st.fixedRoleGrants builtin).getD []).filter
            (fun name => (lookupA st.fixedRoles name).isSome)).flatMap (permsOfName st)) := by
  rw [getFixedPermissions, foldl_builtinPermStep]
  simp

theorem isPrefixOf_iff_exists (l₁ l₂ : List Char) :
    l₁.isPrefixOf l₂ = true ↔ ∃ t, l₁ ++ t = l₂ := by
  simp [ List.IsPrefix]

theorem isSuffixOf_iff_exists (l₁ l₂ : List Char) :
    l₁.isSuffixOf l₂ = true ↔ ∃ t, t ++ l₁ = l₂ := by
  simp [ List.IsSuffix]

theorem scopeMatchChars_iff (g r : List Char) :
    scopeMatchChars g r = true ↔
      (g = r ∨ g = ['*'] ∨ ∃ head tail, g = head ++ [':', '*'] ∧ r = head ++ ':' :: tail) := by
  unfold scopeMatchChars
  simp only [Bool.or_eq_true, Bool.and_eq_true, beq_iff_eq]
  constructor
  · rintro ((h | h) | ⟨hsuf, hpre⟩)
    · exact Or.inl h
    · exact Or.inr (Or.inl h)
    · right; right
      obtain ⟨t, ht⟩ := (isSuffixOf_iff_exists _ _).mp hsuf
      obtain ⟨u, hu⟩ := (isPrefixOf_iff_exists _ _).mp hpre
      have hdrop : g.dropLast = t ++ [':'] := by
        rw [← ht, show t ++ [':', '*'] = (t ++ [':']) ++ ['*'] by simp, List.dropLast_concat]
      refine ⟨t, u, ht.symm, ?_⟩
      rw [← hu, hdrop]
      simp
  · rintro (h | h | ⟨head, tail, hg, hr⟩)
    · exact Or.inl (Or.inl h)
    · exact Or.inl (Or.inr h)
    · refine Or.inr ⟨?_, ?_⟩
      · exact (isSuffixOf_iff_exists _ _).mpr ⟨head, hg.symm⟩
      · refine (isPrefixOf_iff_exists _ _).mpr ⟨tail, ?_⟩
        rw [hg, hr, show head ++ [':', '*'] = (head ++ [':']) ++ ['*'] by simp,
          List.dropLast_concat]
        simp

/-- Claim C9: the wildcard rule - a granted scope matches a required scope
exactly when they are equal, or the granted scope is the universal wildcard, or
the granted scope ends in the wildcard marker and its literal part reaches the
required scope at a colon-delimited segment boundary; in particular
"resources:*" matches "resources:5" but not "resources-other:5", and "*"
matches every required scope. -/
theorem scopeMatches_rule :
    (∀ granted required : String, scopeMatches granted required = true ↔
      (granted = required ∨ granted = "*" ∨
        ∃ head tail, granted.data = head ++ [':', '*'] ∧ required.data = head ++ ':' :: tail))
    ∧ scopeMatches "resources:*" "resources:5" = true
    ∧ scopeMatches "resources:*" "resources-other:5" = false
    ∧ ∀ required : String, scopeMatches "*" required = true := by
  refine ⟨?_, by decide, by decide, ?_⟩
  · intro granted required
    rw [scopeMatches, scopeMatchChars_iff]
    have hstar : ("*" : String).data = ['*'] := rfl
    simp only [String.ext_iff, hstar]
  · intro required
    rw [scopeMatches, scopeMatchChars]
    have hstar : ("*" : String).data = ['*'] := rfl
    rw [hstar]
    simp

theorem resolveKeyword_error_eq (user : SignedInUser) (p : Permission) (e : AccessErr)
    (h : ResolveKeyword user p = .error e) : e = AccessErr.resolutionError "teams:self" := by
  rw [ResolveKeyword] at h
  split at h
  · exact absurd h (by simp)
  · split at h
    · split at h
      · simp only [Except.error.injEq] at h
        exact h.symm
      · exact absurd h (by simp)
    · exact absurd h (by simp)

theorem resolveKeyword_ok_scope (user : SignedInUser) (p q : Permission)
    (h : ResolveKeyword user p = .ok q) : q.scope ≠ "users:self" := by
  rw [ResolveKeyword] at h
  split at h
  · rw [Except.ok.injEq] at h
    intro hcontra
    rw [← h] at hcontra
    have h2 : "users:id:" ++ toString user.userId = "users:self" := hcontra
    have hdata : ("users:id:" : String).data ++ (toString user.userId).data
        = ("users:self" : String).data := by
      rw [← String.data_append, h2]
    have hpre2 : ("users:id:" : String).data.isPrefixOf ("users:self" : String).data = true :=
      (isPrefixOf_iff_exists _ _).mpr ⟨_, hdata⟩
    exact absurd hpre2 (by decide)
  · split at h
    · split at h
      · exact absurd h (by simp)
      · rename_i t ts hteams
        rw [Except.ok.injEq] at h
        intro hcontra
        rw [← h] at hcontra
        have h2 : "teams:id:" ++ toString t = "users:self" := hcontra
        have hdata : ("teams:id:" : String).data ++ (toString t).data
            = ("users:self" : String).data := by
          rw [← String.data_append, h2]
        have hpre2 : ("teams:id:" : String).data.isPrefixOf ("users:self" : String).data = true :=
          (isPrefixOf_iff_exists _ _).mpr ⟨_, hdata⟩
        exact absurd hpre2 (by decide)
    · rename_i hc1 hc2
      rw [Except.ok.injEq] at h
      rw [← h]
      exact hc1

theorem resolveAll_ok_forward (user : SignedInUser) (ps : List Permission) :
    ∀ qs, resolveAll user ps = .ok qs →
      ∀ p ∈ ps, ∃ q, ResolveKeyword user p = .ok q ∧ q ∈ qs := by
  induction ps with
  | nil => intro qs _ p hp; cases hp
  | cons p0 rest ih =>
    intro qs h p hp
    rw [resolveAll] at h
    cases h0 : ResolveKeyword user p0 with
    | error e => rw [h0] at h; cases h
    | ok q0 =>
      rw [h0] at h
      cases hrest : resolveAll user rest with
      | error e => rw [hrest] at h; cases h
      | ok qs' =>
        rw [hrest] at h
        rw [Except.ok.injEq] at h
        rcases List.mem_cons.mp hp with h1 | h1
        · subst h1
          exact ⟨q0, h0, by rw [← h]; exact List.mem_cons_self _ _⟩
        · obtain ⟨q, hq1, hq2⟩ := ih qs' hrest p h1
          exact ⟨q, hq1, by rw [← h]; exact List.mem_cons_of_mem _ hq2⟩

theorem resolveAll_ok_backward (user : SignedInUser) (ps : List Permission) :
    ∀ qs, resolveAll user ps = .ok qs →
      ∀ q ∈ qs, ∃ p ∈ ps, ResolveKeyword user p = .ok q := by
  induction ps with
  | nil =>
    intro qs h q hq
    rw [resolveAll, Except.ok.injEq] at h
    rw [← h] at hq
    cases hq
  | cons p0 rest ih =>
    intro qs h q hq
    rw [resolveAll] at h
    cases h0 : ResolveKeyword user p0 with
    | error e => rw [h0] at h; cases h
    | ok q0 =>
      rw [h0] at h
      cases hrest : resolveAll user rest with
      | error e => rw [hrest] at h; cases h
      | ok qs' =>
        rw [hrest] at h
        rw [Except.ok.injEq] at h
        rw [← h] at hq
        rcases List.mem_cons.mp hq with h1 | h1
        · subst h1
          exact ⟨p0, List.mem_cons_self _ _, h0⟩
        · obtain ⟨p, hp1, hp2⟩ := ih qs' hrest q h1
          exact ⟨p, List.mem_cons_of_mem _ hp1, hp2⟩

theorem resolveAll_error_of_mem (user : SignedInUser) (ps : List Permission) :
    (∃ p ∈ ps, ∃ e, ResolveKeyword user p = .error e) →
    resolveAll user ps = .error (AccessErr.resolutionError "teams:self") := by
  induction ps with
  | nil => rintro ⟨p, hp, _⟩; cases hp
  | cons p0 rest ih =>
    rintro ⟨p, hp, e, he⟩
    rw [resolveAll]
    cases h0 : ResolveKeyword user p0 with
    | error e0 =>
      rw [resolveKeyword_error_eq user p0 e0 h0]
    | ok q0 =>
      have hrest : ∃ p ∈ rest, ∃ e, ResolveKeyword user p = .error e := by
        rcases List.mem_cons.mp hp with h1 | h1
        · subst h1; rw [he] at h0; cases h0
        · exact ⟨p, h1, e, he⟩
      rw [ih hrest]

/-- Claim C6: for a principal with user id 2 whose fixed permissions contain
(users:read, users:self), GetUserPermissions returns a set containing the
resolved (users:read, users:id:2) and not the unresolved permission; and a
principal lacking the team context a team-self placeholder requires makes the
whole permission-retrieval call fail with a resolution error, with no partial
permission list. -/
theorem getUserPermissions_resolution (st : Registry) (user : SignedInUser) :
    (∀ perms, user.userId = 2 →
      Permission.mk "users:read" "users:self" ∈ getFixedPermissions st (GetUserBuiltInRoles user) →
      GetUserPermissions st user = .ok perms →
      (Permission.mk "users:read" "users:id:2" ∈ perms
        ∧ Permission.mk "users:read" "users:self" ∉ perms))
    ∧ ∀ a, user.teams = [] →
      Permission.mk a "teams:self" ∈ getFixedPermissions st (GetUserBuiltInRoles user) →
      GetUserPermissions st user = .error (AccessErr.resolutionError "teams:self") := by
  constructor
  · intro perms huid hmem hok
    rw [GetUserPermissions] at hok
    obtain ⟨q, hq1, hq2⟩ := resolveAll_ok_forward user _ perms hok _ hmem
    have hq : q = Permission.mk "users:read" ("users:id:" ++ toString user.userId) := by
      rw [ResolveKeyword] at hq1
      rw [if_pos rfl, Except.ok.injEq] at hq1
      exact hq1.symm
    constructor
    · rw [huid] at hq
      have hq' : q = Permission.mk "users:read" "users:id:2" := by rw [hq]; rfl
      rwa [← hq']
    · intro hcontra
      obtain ⟨p, hp1, hp2⟩ := resolveAll_ok_backward user _ perms hok _ hcontra
      exact resolveKeyword_ok_scope user p _ hp2 rfl
  · intro a hteams hmem
    rw [GetUserPermissions]
    apply resolveAll_error_of_mem
    refine ⟨Permission.mk a "teams:self", hmem, AccessErr.resolutionError "teams:self", ?_⟩
    simp [ResolveKeyword, hteams]

/-- A registry holding a role with a self-scoped user permission granted to
viewers (used as a concrete input). -/
def stSelf : Registry :=
  ⟨[("fixed:test:test", ⟨"", "fixed:test:test", 1, [⟨"users:read", "users:self"⟩]⟩)],
    [("Viewer", ["fixed:test:test"])]⟩

/-- A viewer principal with user id 2 and no team context (used as a concrete
input). -/
def userSelf : SignedInUser := ⟨2, 3, .viewer, false, []⟩

/-- A registry holding a role with a team-self permission granted to viewers
(used as a concrete input). -/
def stTeam : Registry :=
  ⟨[("fixed:test:team", ⟨"", "fixed:test:team", 1, [⟨"teams:read", "teams:self"⟩]⟩)],
    [("Viewer", ["fixed:test:team"])]⟩

/-- Witness for claim C6 at concrete registries and principal. -/
theorem getUserPermissions_resolution_witness :
    (Permission.mk "users:read" "users:id:2" ∈ [Permission.mk "users:read" "users:id:2"]
      ∧ Permission.mk "users:read" "users:self" ∉ [Permission.mk "users:read" "users:id:2"])
    ∧ GetUserPermissions stTeam userSelf = .error (AccessErr.resolutionError "teams:self") :=
  ⟨(getUserPermissions_resolution stSelf userSelf).1
      [Permission.mk "users:read" "users:id:2"] rfl (by decide) rfl,
    (getUserPermissions_resolution stTeam userSelf).2 "teams:read" rfl (by decide)⟩

theorem groupStep_mem (m : List (String × List String)) (p : Permission) (a sc : String) :
    sc ∈ (lookupA (groupStep m p) a).getD [] ↔
      sc ∈ (lookupA m a).getD [] ∨ (p.action = a ∧ p.scope = sc) := by
  rw [groupStep]
  by_cases h : p.action = a
  · subst h
    rw [lookupA_insertA_self]
    simp only [Option.getD_some, List.mem_append, List.mem_singleton,
      eq_self_iff_true, true_and]
    constructor
    · rintro (h1 | h1)
      · exact Or.inl h1
      · exact Or.inr h1.symm
    · rintro (h1 | h1)
      · exact Or.inl h1
      · exact Or.inr h1.symm
  · rw [lookupA_insertA_ne _ _ (fun hh => h hh.symm)]
    simp [h]

theorem foldl_groupStep_mem (ps : List Permission) :
    ∀ (m : List (String × List String)) (a sc : String),
      sc ∈ (lookupA (ps.foldl groupStep m) a).getD [] ↔
        sc ∈ (lookupA m a).getD [] ∨ ∃ p ∈ ps, p.action = a ∧ p.scope = sc := by
  induction ps with
  | nil => intro m a sc; simp
  | cons p0 rest ih =>
    intro m a sc
    rw [List.foldl_cons, ih, groupStep_mem]
    constructor
    · rintro ((h | ⟨h1, h2⟩) | ⟨p, hp, h1, h2⟩)
      · exact Or.inl h
      · exact Or.inr ⟨p0, List.mem_cons_self _ _, h1, h2⟩
      · exact Or.inr ⟨p, List.mem_cons_of_mem _ hp, h1, h2⟩
    · rintro (h | ⟨p, hp, h1, h2⟩)
      · exact Or.inl (Or.inl h)
      · rcases List.mem_cons.mp hp with h3 | h3
        · subst h3; exact Or.inl (Or.inr ⟨h1, h2⟩)
        · exact Or.inr ⟨p, h3, h1, h2⟩

theorem groupScopesByAction_mem (ps : List Permission) (a sc : String) :
    sc ∈ (lookupA (GroupScopesByAction ps) a).getD [] ↔
      ∃ p ∈ ps, p.action = a ∧ p.scope = sc := by
  rw [GroupScopesByAction, foldl_groupStep_mem]
  simp [lookupA]

/-- Claim C7: Evaluate returns an error exactly when the upstream permission
retrieval fails; in every other case it returns the evaluator's boolean, and a
leaf with no matching permission yields the normal result false, never an
error. -/
theorem evaluate_error_behaviour (st : Registry) (user : SignedInUser) (ev : Evaluator) :
    (∀ e, Evaluate st user ev = .error e ↔ GetUserPermissions st user = .error e)
    ∧ (∀ perms, GetUserPermissions st user = .ok perms →
        Evaluate st user ev = .ok (ev.run (GroupScopesByAction perms)))
    ∧ ∀ a s perms, GetUserPermissions st user = .ok perms →
      (∀ p ∈ perms, p.action = a → scopeMatches p.scope s = false) →
      Evaluate st user (Evaluator.leaf a s) = .ok false := by
  refine ⟨?_, ?_, ?_⟩
  · intro e
    cases h : GetUserPermissions st user with
    | error e' => simp [Evaluate, h]
    | ok perms => simp [Evaluate, h]
  · intro perms h
    simp [Evaluate, h]
  · intro a s perms h hnone
    simp only [Evaluate, h]
    rw [Except.ok.injEq, Evaluator.run]
    rw [List.any_eq_false]
    intro granted hg
    obtain ⟨p, hp, hpa, hps⟩ := (groupScopesByAction_mem perms a granted).mp hg
    rw [← hps]
    simp [hnone p hp hpa]

/-- Witness for claim C7: a leaf asking for an action the concrete principal
does not hold evaluates to the normal result false. -/
theorem evaluate_error_behaviour_witness :
    Evaluate stSelf userSelf (Evaluator.leaf "users:write" "users:id:2") = .ok false :=
  (evaluate_error_behaviour stSelf userSelf (Evaluator.leaf "users:write" "users:id:2")).2.2
    "users:write" "users:id:2" [Permission.mk "users:read" "users:id:2"] rfl (by decide)

theorem metaStep_mem (resource r : String) (m : List (String × List String)) (p : Permission)
    (a : String) :
    a ∈ (lookupA (metaStep resource r m p) r).getD [] ↔
      a ∈ (lookupA m r).getD [] ∨ (p.action = a ∧ scopeHit resource r p = true) := by
  rw [metaStep]
  by_cases hh : scopeHit resource r p
  · rw [if_pos hh, lookupA_insertA_self]
    simp only [Option.getD_some, hh, and_true]
    by_cases hmem : p.action ∈ (lookupA m r).getD []
    · rw [if_pos hmem]
      constructor
      · exact fun h => Or.inl h
      · rintro (h | h)
        · exact h
        · rw [← h]; exact hmem
    · rw [if_neg hmem]
      simp only [List.mem_append, List.mem_singleton]
      constructor
      · rintro (h | h)
        · exact Or.inl h
        · exact Or.inr h.symm
      · rintro (h | h)
        · exact Or.inl h
        · exact Or.inr h.symm
  · rw [if_neg hh]
    simp [hh]

theorem metaStep_frame (resource r r' : String) (m : List (String × List String))
    (p : Permission) (h : r' ≠ r) : lookupA (metaStep resource r m p) r' = lookupA m r' := by
  rw [metaStep]
  by_cases hh : scopeHit resource r p
  · rw [if_pos hh, lookupA_insertA_ne _ _ h]
  · rw [if_neg hh]

theorem metaStep_isSome (resource r : String) (m : List (String × List String))
    (p : Permission) :
    (lookupA (metaStep resource r m p) r).isSome = true ↔
      ((lookupA m r).isSome = true ∨ scopeHit resource r p = true) := by
  rw [metaStep]
  by_cases hh : scopeHit resource r p
  · rw [if_pos hh, lookupA_insertA_self]
    simp [hh]
  · rw [if_neg hh]
    simp [hh]

theorem metaForID_mem (resource r : String) (ps : List Permission) :
    ∀ (m : List (String × List String)) (a : String),
      a ∈ (lookupA (metaForID resource ps m r) r).getD [] ↔
        a ∈ (lookupA m r).getD [] ∨ ∃ p ∈ ps, p.action = a ∧ scopeHit resource r p = true := by
  unfold metaForID
  induction ps with
  | nil => intro m a; simp
  | cons p0 rest ih =>
    intro m a
    rw [List.foldl_cons, ih, metaStep_mem]
    constructor
    · rintro ((h | ⟨h1, h2⟩) | ⟨p, hp, h1, h2⟩)
      · exact Or.inl h
      · exact Or.inr ⟨p0, List.mem_cons_self _ _, h1, h2⟩
      · exact Or.inr ⟨p, List.mem_cons_of_mem _ hp, h1, h2⟩
    · rintro (h | ⟨p, hp, h1, h2⟩)
      · exact Or.inl (Or.inl h)
      · rcases List.mem_cons.mp hp with h3 | h3
        · subst h3; exact Or.inl (Or.inr ⟨h1, h2⟩)
        · exact Or.inr ⟨p, h3, h1, h2⟩

theorem metaForID_frame (resource r r' : String) (ps : List Permission) (h : r' ≠ r) :
    ∀ m, lookupA (metaForID resource ps m r) r' = lookupA m r' := by
  unfold metaForID
  induction ps with
  | nil => intro m; rfl
  | cons p0 rest ih =>
    intro m
    rw [List.foldl_cons, ih, metaStep_frame _ _ _ _ _ h]

theorem metaForID_isSome (resource r : String) (ps : List Permission) :
    ∀ m, (lookupA (metaForID resource ps m r) r).isSome = true ↔
      ((lookupA m r).isSome = true ∨ ∃ p ∈ ps, scopeHit resource r p = true) := by
  unfold metaForID
  induction ps with
  | nil => intro m; simp
  | cons p0 rest ih =>
    intro m
    rw [List.foldl_cons, ih, metaStep_isSome]
    constructor
    · rintro ((h | h) | ⟨p, hp, h2⟩)
      · exact Or.inl h
      · exact Or.inr ⟨p0, List.mem_cons_self _ _, h⟩
      · exact Or.inr ⟨p, List.mem_cons_of_mem _ hp, h2⟩
    · rintro (h | ⟨p, hp, h2⟩)
      · exact Or.inl (Or.inl h)
      · rcases List.mem_cons.mp hp with h3 | h3
        · subst h3; exact Or.inl (Or.inr h2)
        · exact Or.inr ⟨p, h3, h2⟩

theorem foldl_metaForID_mem (resource : String) (ps : List Permission) (ids : List String) :
    ∀ (m : List (String × List String)) (r a : String),
      a ∈ (lookupA (ids.foldl (metaForID resource ps) m) r).getD [] ↔
        a ∈ (lookupA m r).getD []
          ∨ (r ∈ ids ∧ ∃ p ∈ ps, p.action = a ∧ scopeHit resource r p = true) := by
  induction ids with
  | nil => intro m r a; simp
  | cons r0 rest ih =>
    intro m r a
    rw [List.foldl_cons, ih]
    by_cases hr : r = r0
    · subst hr
      rw [metaForID_mem]
      simp only [List.mem_cons, eq_self_iff_true, true_or, true_and]
      constructor
      · rintro ((h | h) | ⟨_, h⟩)
        · exact Or.inl h
        · exact Or.inr h
        · exact Or.inr h
      · rintro (h | h)
        · exact Or.inl (Or.inl h)
        · exact Or.inl (Or.inr h)
    · rw [show lookupA (metaForID resource ps m r0) r = lookupA m r from
        metaForID_frame resource r0 r ps hr m]
      simp only [List.mem_cons]
      constructor
      · rintro (h | ⟨h1, h2⟩)
        · exact Or.inl h
        · exact Or.inr ⟨Or.inr h1, h2⟩
      · rintro (h | ⟨h1, h2⟩)
        · exact Or.inl h
        · rcases h1 with h1 | h1
          · exact absurd h1 hr
          · exact Or.inr ⟨h1, h2⟩

theorem foldl_metaForID_isSome (resource : String) (ps : List Permission) (ids : List String) :
    ∀ (m : List (String × List String)) (r : String),
      (lookupA (ids.foldl (metaForID resource ps) m) r).isSome = true ↔
        ((lookupA m r).isSome = true
          ∨ (r ∈ ids ∧ ∃ p ∈ ps, scopeHit resource r p = true)) := by
  induction ids with
  | nil => intro m r; simp
  | cons r0 rest ih =>
    intro m r
    rw [List.foldl_cons, ih]
    by_cases hr : r = r0
    · subst hr
      rw [metaForID_isSome]
      simp only [List.mem_cons, eq_self_iff_true, true_or, true_and]
      constructor
      · rintro ((h | h) | ⟨_, h⟩)
        · exact Or.inl h
        · exact Or.inr h
        · exact Or.inr h
      · rintro (h | h)
        · exact Or.inl (Or.inl h)
        · exact Or.inl (Or.inr h)
    · rw [show lookupA (metaForID resource ps m r0) r = lookupA m r from
        metaForID_frame resource r0 r ps hr m]
      simp only [List.mem_cons]
      constructor
      · rintro (h | ⟨h1, h2⟩)
        · exact Or.inl h
        · exact Or.inr ⟨Or.inr h1, h2⟩
      · rintro (h | ⟨h1, h2⟩)
        · exact Or.inl h
        · rcases h1 with h1 | h1
          · exact absurd h1 hr
          · exact Or.inr ⟨h1, h2⟩

theorem exists_some_mem_getD (o : Option (List String)) (a : String) :
    (∃ md, o = some md ∧ a ∈ md) ↔ a ∈ o.getD [] := by
  cases o with
  | none => simp
  | some md => simp

theorem exists_some_isSome (o : Option (List String)) :
    (∃ md, o = some md) ↔ o.isSome = true := by
  cases o with
  | none => simp
  | some md => simp

/-- Claim C4: GetResourcesMetadata records action a under resource id r exactly
when r was requested and some permission among the concatenated fixed and
stored permissions carries action a with the universal wildcard, the
resource-wide scope, the all-ids scope, or r's concrete scope; a requested id
with no matching permission is entirely absent from the map, and a present id
never carries an empty action set. -/
theorem getResourcesMetadata_characterization (st : Registry) (user : SignedInUser)
    (resource : String) (resourceIDs : List String) (stored : List Permission)
    (m : List (String × List String))
    (h : GetResourcesMetadata st user resource resourceIDs (.ok stored) = .ok m) :
    (∀ r a, (∃ md, lookupA m r = some md ∧ a ∈ md) ↔
        (r ∈ resourceIDs
          ∧ ∃ p ∈ getFixedPermissions st (GetUserBuiltInRoles user) ++ stored,
              p.action = a ∧ scopeHit resource r p = true))
    ∧ (∀ r, (∃ md, lookupA m r = some md) ↔
        (r ∈ resourceIDs
          ∧ ∃ p ∈ getFixedPermissions st (GetUserBuiltInRoles user) ++ stored,
              scopeHit resource r p = true))
    ∧ ∀ r md, lookupA m r = some md → md ≠ [] := by
  rw [GetResourcesMetadata, Except.ok.injEq] at h
  subst h
  refine ⟨?_, ?_, ?_⟩
  · intro r a
    rw [exists_some_mem_getD, foldl_metaForID_mem]
    simp [lookupA]
  · intro r
    rw [exists_some_isSome, foldl_metaForID_isSome]
    simp [lookupA]
  · intro r md hmd hnil
    have h1 : ∃ md', lookupA (resourceIDs.foldl
        (metaForID resource (getFixedPermissions st (GetUserBuiltInRoles user) ++ stored)) [])
          r = some md' := ⟨md, hmd⟩
    rw [exists_some_isSome, foldl_metaForID_isSome] at h1
    rcases h1 with h1 | h1
    · simp [lookupA] at h1
    obtain ⟨hr, p, hp, hhit⟩ := h1
    have h2 : ∃ md', lookupA (resourceIDs.foldl
        (metaForID resource (getFixedPermissions st (GetUserBuiltInRoles user) ++ stored)) [])
          r = some md' ∧ p.action ∈ md' := by
      rw [exists_some_mem_getD, foldl_metaForID_mem]
      exact Or.inr ⟨hr, p, hp, rfl, hhit⟩
    obtain ⟨md', hmd', hamem⟩ := h2
    rw [hmd] at hmd'
    injection hmd' with he
    rw [← he, hnil] at hamem
    exact absurd hamem (List.not_mem_nil _)

/-- A registry with an all-ids fixed permission granted to admins (used as a
concrete input). -/
def stMeta : Registry :=
  ⟨[("fixed:resources:test",
      ⟨"", "fixed:resources:test", 1, [⟨"resources:action4", "resources:id:*"⟩]⟩)],
    [("Admin", ["fixed:resources:test"])]⟩

/-- An admin principal (used as a concrete input). -/
def userMeta : SignedInUser := ⟨1, 2, .admin, false, []⟩

/-- A stored permission on resource id 1 (used as a concrete input). -/
def storedMeta : List Permission := [⟨"resources:action1", "resources:id:1"⟩]

/-- The metadata map computed on the concrete inputs. -/
def metaResult : List (String × List String) :=
  [("1", ["resources:action4", "resources:action1"]), ("2", ["resources:action4"])]

/-- Witness for claim C4: on the concrete inputs, the stored action on resource
id 1 is recorded under key 1. -/
theorem getResourcesMetadata_characterization_witness :
    ∃ md, lookupA metaResult "1" = some md ∧ "resources:action1" ∈ md :=
  ((getResourcesMetadata_characterization stMeta userMeta "resources" ["1", "2"] storedMeta
      metaResult rfl).1 "1" "resources:action1").mpr (by decide)

end GrafanaAC
